import Mathlib

/-!
Shallow embedding of the blocklist store of this hickory-dns fork
(crates/server/src/store/blocklist/authority.rs and authority.tree.rs),
together with theorems settling the specification claims about it.
Domain-name strings are modeled as lists of characters.
-/

/-- Domain-name strings, modeled as lists of characters. -/
abbrev Str := List Char

/-- Rust str::split(sep) semantics: split at every occurrence of sep, keeping
empty pieces, so a trailing separator yields a trailing empty piece and the
result is never the empty list. -/
def splitOnChar (sep : Char) : Str → List Str
  | [] => [[]]
  | c :: cs =>
    if c = sep then
      [] :: splitOnChar sep cs
    else
      match splitOnChar sep cs with
      | [] => [[c]]
      | p :: ps => (c :: p) :: ps

/-- The block table of the authority, modeling HashMap String bool
(key: entry string, value: wildcard flag). -/
abbrev BlockTable := List (Str × Bool)

/-- HashMap::contains_key on the block table. -/
def containsKey (t : BlockTable) (k : Str) : Bool :=
  t.any (fun p => p.1 == k)

/-- HashMap::insert on the block table: replaces any existing binding of the
key. -/
def tableInsert (t : BlockTable) (k : Str) (v : Bool) : BlockTable :=
  (k, v) :: t.filter (fun p => !(p.1 == k))

/-- DNS record types relevant to the store: a representative subset of the
proto RecordType enumeration. -/
inductive RecordType
  | A | AAAA | MX | TXT
  deriving DecidableEq, Repr

/-- Record data: only the A rdata (an IPv4 quad, u8 components) is ever built
by this store. -/
inductive RData
  | A (a b c d : Nat)
  deriving DecidableEq, Repr

/-- Lookup errors of the authority interface: NotHandled is the fallthrough
signal; every other LookupError variant is collapsed into a generic failure
carrying a message. -/
inductive LookupError
  | notHandled
  | other (msg : String)
  deriving DecidableEq, Repr

/-- A synthesized DNS record bound to a name. -/
structure DnsRecord where
  name : Str
  rdata : RData
  deriving DecidableEq, Repr

/-- Result of a blocklist lookup: the BlockListLookup wrapper with the query
it answers and its records. -/
structure BlockListLookup where
  query_name : Str
  query_type : RecordType
  records : List DnsRecord
  deriving DecidableEq, Repr

/-- Modelled from the spec: Lookup::from_rdata (hickory resolver crate, not
under src/) builds a minimal lookup whose answer is the single record binding
the queried name to the given rdata. -/
def lookupFromRdata (qname : Str) (qtype : RecordType) (rd : RData) : BlockListLookup :=
  { query_name := qname, query_type := qtype, records := [{ name := qname, rdata := rd }] }

/-- BlockListAuthority state (authority.rs). The field min_wildcard_depth is a
u8 in the source; it is modeled as Nat. -/
structure BlockListAuthority where
  origin : Str
  block_table : BlockTable
  wildcard_match : Bool
  min_wildcard_depth : Nat
  deriving DecidableEq

deriving instance DecidableEq for Except

/-- BlockListAuthority::get_wildcards. The loop bound
elems.len() - (min_wildcard_depth + 1) is a usize subtraction: when
elems.len() < min_wildcard_depth + 1 it underflows (debug builds panic,
release builds wrap into an unbounded loop); that divergence is modeled as
none. Candidate i is the '*' character followed by ".elem" for each element
after index i. -/
def get_wildcards (min_wildcard_depth : Nat) (host : Str) : Option (List Str) :=
  let elems := splitOnChar '.' host
  if elems.length < min_wildcard_depth + 1 then
    none
  else
    some ((List.range (elems.length - (min_wildcard_depth + 1))).map (fun i =>
      '*' :: ((elems.drop (i + 1)).flatMap (fun e => '.' :: e))))

/-- BlockListAuthority::lookup (authority.rs): build the match list, the query
name followed (when wildcard_match is set) by get_wildcards of it, and answer
with a synthetic A 0.0.0.0 record bound to the queried name as soon as any
candidate is a block_table key; otherwise signal NotHandled. The none result
models the panic propagated out of get_wildcards. -/
def lookup (auth : BlockListAuthority) (name : Str) (rtype : RecordType) :
    Option (Except LookupError BlockListLookup) := do
  let wcs ← if auth.wildcard_match then get_wildcards auth.min_wildcard_depth name else some []
  let match_list := name :: wcs
  if match_list.any (fun host => containsKey auth.block_table host) then
    some (Except.ok (lookupFromRdata name rtype (RData.A 0 0 0 0)))
  else
    some (Except.error LookupError.notHandled)

/-- The normalization applied by BlockListAuthority::add to a non-empty line:
append a trailing dot unless the last character already is a dot. -/
def normEntry (entry : Str) : Str :=
  if entry.getLast? == some '.' then entry else entry ++ ['.']

/-- One iteration of the line loop of BlockListAuthority::add: skip the line
exactly when it is the empty string, otherwise insert the normalized line into
the block table with wildcard flag false. -/
def addEntry (t : BlockTable) (entry : Str) : BlockTable :=
  if entry = [] then t
  else tableInsert t (normEntry entry) false

/-- The line-processing loop of BlockListAuthority::add over the whole file
contents, split on newlines. -/
def addContents (t : BlockTable) (contents : Str) : BlockTable :=
  (splitOnChar '\n' contents).foldl addEntry t

/-- The filesystem collaborator: a partial map from paths to file contents. -/
abbrev FileSystem := List (Str × Str)

/-- File::open followed by read_to_string: none when the path is absent. -/
def fileOpen (fs : FileSystem) (path : Str) : Option Str :=
  (fs.find? (fun p => p.1 == path)).map (fun p => p.2)

/-- BlockListAuthority::add: File::open(file).expect(..) panics when the file
cannot be opened, which is modeled as none; otherwise the lines are folded
into the block table and the function returns true (the updated state). -/
def add (fs : FileSystem) (auth : BlockListAuthority) (file : Str) :
    Option BlockListAuthority := do
  let contents ← fileOpen fs file
  some { auth with block_table := addContents auth.block_table contents }

/-- BlockListConfig: the configuration surface of the blocklist store. -/
structure BlockListConfig where
  lists : List Str
  wildcard_match : Bool
  min_wildcard_depth : Nat

/-- BlockListAuthority::try_from_config: start from an empty block table, then
for each configured list file unwrap root_dir (a panic, modeled as none, when
it is absent) and run add on the path root_dir/file (a panic when the file is
unreadable); when every add succeeds the result is Ok - no code path returns
the Err variant of the declared Result type. -/
def try_from_config (origin : Str) (config : BlockListConfig) (root_dir : Option Str)
    (fs : FileSystem) : Option (Except String BlockListAuthority) := do
  let init : BlockListAuthority :=
    { origin := origin, block_table := [], wildcard_match := config.wildcard_match,
      min_wildcard_depth := config.min_wildcard_depth }
  let auth ← config.lists.foldlM (fun auth bl => do
    let rd ← root_dir
    add fs auth (rd ++ '/' :: bl)) init
  some (Except.ok auth)

/-- BlockTree node (authority.tree.rs): entry label, wildcard flag, children
keyed by label, and the self-referential ptr field modeled as a flag recording
whether it was assigned. -/
inductive BlockTree
  | mk (entry : Str) (wildcard : Bool) (children : List (Str × BlockTree)) (ptrSet : Bool)

/-- BlockTree::new: the root node labeled with the root label. -/
def BlockTree.new : BlockTree := .mk ['.'] false [] false

/-- BlockTree::insert: reverse the labels split on dots, overwrite element 0
with the root label ".", then iterate: index 0 is always skipped (the branch
rejecting an unknown root element is unreachable because element 0 was just
overwritten), and every later element is inserted as a direct child of the
root node when absent - the walk never descends, so the tree stays one level
deep. The ptr self-reference assigned before the loop is modeled by setting
the flag. -/
def BlockTree.insert : BlockTree → Str → BlockTree
  | .mk e w children _, entry =>
    match (splitOnChar '.' entry).reverse with
    | [] => .mk e w children true
    | _ :: rest =>
      .mk e w
        (rest.foldl (fun cs el =>
          if cs.any (fun p => p.1 == el) then cs
          else cs ++ [(el, .mk el false [] false)]) children)
        true

/-- The tree-variant BlockListAuthority state (authority.tree.rs). -/
structure TreeAuthority where
  origin : Str
  block_table : BlockTable
  block_tree : BlockTree

/-- One iteration of the line loop of the tree-variant add: skip the line
exactly when it is empty; otherwise insert the line verbatim (no trailing dot
appended, no lowercasing) into both the block tree and the block table with
flag true. -/
def treeAddLine (a : TreeAuthority) (line : Str) : TreeAuthority :=
  if line = [] then a
  else
    { a with
      block_tree := a.block_tree.insert line,
      block_table := tableInsert a.block_table line true }

/-- The line-processing loop of the tree-variant BlockListAuthority::add. -/
def treeAddContents (a : TreeAuthority) (contents : Str) : TreeAuthority :=
  (splitOnChar '\n' contents).foldl treeAddLine a

/-- The tree-variant BlockListAuthority::lookup: answer with the synthetic
A 0.0.0.0 record exactly when the query-name string is a block_table key; the
block_tree field is not consulted. -/
def treeLookup (a : TreeAuthority) (name : Str) (rtype : RecordType) :
    Except LookupError BlockListLookup :=
  if containsKey a.block_table name then
    Except.ok (lookupFromRdata name rtype (RData.A 0 0 0 0))
  else
    Except.error LookupError.notHandled

/-- The label count of a fully qualified name string: splitting
"l1.l2...lk." on dots yields k+1 pieces (the trailing root label contributes
a final empty piece), so the name has one label fewer than split pieces. -/
def numLabels (host : Str) : Nat :=
  (splitOnChar '.' host).length - 1


/-! Helper lemmas about the embedded operations. -/

theorem splitOnChar_ne_nil (sep : Char) (s : Str) : splitOnChar sep s ≠ [] := by
  induction s with
  | nil => simp [splitOnChar]
  | cons c cs ih =>
    simp only [splitOnChar]
    split
    · simp
    · split
      · simp
      · simp

theorem length_flatMap_dot (l : List Str) :
    (l.flatMap (fun e => '.' :: e)).length = (l.map List.length).sum + l.length := by
  induction l with
  | nil => simp
  | cons x xs ih =>
    simp only [List.flatMap_cons, List.length_append, List.length_cons, List.map_cons,
      List.sum_cons, ih]
    omega

theorem splitOnChar_length_sum (sep : Char) (s : Str) :
    ((splitOnChar sep s).map List.length).sum + (splitOnChar sep s).length = s.length + 1 := by
  induction s with
  | nil => simp [splitOnChar]
  | cons c cs ih =>
    simp only [splitOnChar, List.length_cons]
    split
    · simp only [List.map_cons, List.sum_cons, List.length_cons, List.length_nil]
      omega
    · cases h : splitOnChar sep cs with
      | nil => exact absurd h (splitOnChar_ne_nil sep cs)
      | cons p ps =>
        rw [h] at ih
        simp only [h, List.map_cons, List.sum_cons, List.length_cons] at ih ⊢
        omega

theorem sum_map_length_drop_le (k : Nat) (l : List Str) :
    ((l.drop k).map List.length).sum ≤ (l.map List.length).sum :=
  List.Sublist.sum_le_sum ((List.drop_sublist k l).map List.length)
    (fun _ _ => Nat.zero_le _)

theorem get_wildcards_mem_length_lt (m : Nat) (host : Str) (ws : List Str) (w : Str)
    (hws : get_wildcards m host = some ws) (hw : w ∈ ws) :
    w.length < host.length + 2 := by
  unfold get_wildcards at hws
  dsimp only at hws
  split at hws
  · exact absurd hws (by simp)
  · rw [Option.some_inj] at hws
    subst hws
    obtain ⟨i, hi, rfl⟩ := List.mem_map.mp hw
    have hlen1 : 1 ≤ (splitOnChar '.' host).length :=
      List.length_pos.mpr (splitOnChar_ne_nil '.' host)
    have hsum := splitOnChar_length_sum '.' host
    have hdrop := sum_map_length_drop_le (i + 1) (splitOnChar '.' host)
    simp only [List.length_cons, length_flatMap_dot, List.length_drop]
    omega

theorem containsKey_tableInsert (t : BlockTable) (k k2 : Str) (v : Bool) :
    containsKey (tableInsert t k v) k2 = true ↔ (k = k2 ∨ containsKey t k2 = true) := by
  simp only [containsKey, tableInsert, List.any_cons, List.any_eq_true, Bool.or_eq_true,
    beq_iff_eq, List.mem_filter, Bool.not_eq_eq_eq_not, Bool.not_true]
  constructor
  · rintro (h | ⟨p, ⟨hp, _⟩, hpk⟩)
    · exact Or.inl h
    · exact Or.inr ⟨p, hp, hpk⟩
  · rintro (h | ⟨p, hp, hpk⟩)
    · exact Or.inl h
    · by_cases hk : k = k2
      · exact Or.inl hk
      · refine Or.inr ⟨p, ⟨hp, ?_⟩, hpk⟩
        simp only [beq_eq_false_iff_ne, ne_eq, hpk]
        exact fun h2 => hk h2.symm

theorem containsKey_foldl_addEntry (lines : List Str) (t : BlockTable) (k : Str) :
    containsKey (lines.foldl addEntry t) k = true ↔
      (containsKey t k = true ∨ ∃ line ∈ lines, line ≠ [] ∧ k = normEntry line) := by
  induction lines generalizing t with
  | nil => simp
  | cons l ls ih =>
    rw [List.foldl_cons, ih]
    unfold addEntry
    by_cases hl : l = []
    · subst hl
      simp
    · rw [if_neg hl]
      rw [containsKey_tableInsert]
      constructor
      · rintro (⟨h | h⟩ | ⟨line, hline, hne, hk⟩)
        · exact Or.inr ⟨l, List.mem_cons_self l ls, hl, h.symm⟩
        · exact Or.inl h
        · exact Or.inr ⟨line, List.mem_cons_of_mem l hline, hne, hk⟩
      · rintro (h | ⟨line, hline, hne, hk⟩)
        · exact Or.inl (Or.inr h)
        · rcases List.mem_cons.mp hline with rfl | hmem
          · exact Or.inl (Or.inl hk.symm)
          · exact Or.inr ⟨line, hmem, hne, hk⟩

theorem addContents_mem (contents : Str) (t : BlockTable) (k : Str) :
    containsKey (addContents t contents) k = true ↔
      (containsKey t k = true ∨
        ∃ line ∈ splitOnChar '\n' contents, line ≠ [] ∧ k = normEntry line) :=
  containsKey_foldl_addEntry (splitOnChar '\n' contents) t k

theorem foldlM_option_none {α β : Type} (l : List α) (f : β → α → Option β) (init : β)
    (a : α) (ha : a ∈ l) (hf : ∀ b, f b a = none) : l.foldlM f init = none := by
  induction l generalizing init with
  | nil => cases ha
  | cons x xs ih =>
    rw [List.foldlM_cons]
    rcases List.mem_cons.mp ha with rfl | hmem
    · rw [hf init]
      rfl
    · cases hx : f init x with
      | none => rfl
      | some b =>
        show (some b >>= fun b => xs.foldlM f b) = none
        simp only [Option.bind_eq_bind, Option.some_bind]
        exact ih b hmem

theorem containsKey_foldl_treeAddLine (lines : List Str) (a : TreeAuthority) (k : Str) :
    containsKey ((lines.foldl treeAddLine a).block_table) k = true ↔
      (containsKey a.block_table k = true ∨ (k ∈ lines ∧ k ≠ [])) := by
  induction lines generalizing a with
  | nil => simp
  | cons l ls ih =>
    rw [List.foldl_cons, ih]
    unfold treeAddLine
    by_cases hl : l = []
    · rw [if_pos hl]
      subst hl
      simp only [List.mem_cons]
      constructor
      · rintro (h | ⟨hm, hne⟩)
        · exact Or.inl h
        · exact Or.inr ⟨Or.inr hm, hne⟩
      · rintro (h | ⟨(rfl | hm), hne⟩)
        · exact Or.inl h
        · exact absurd rfl hne
        · exact Or.inr ⟨hm, hne⟩
    · rw [if_neg hl]
      dsimp only
      rw [containsKey_tableInsert]
      simp only [List.mem_cons]
      constructor
      · rintro ((rfl | h) | ⟨hm, hne⟩)
        · exact Or.inr ⟨Or.inl rfl, hl⟩
        · exact Or.inl h
        · exact Or.inr ⟨Or.inr hm, hne⟩
      · rintro (h | ⟨(rfl | hm), hne⟩)
        · exact Or.inl (Or.inr h)
        · exact Or.inl (Or.inl rfl)
        · exact Or.inr ⟨hm, hne⟩

/-! Theorems settling the specification claims. -/

/-- Claim C1, counterexample: with only the wildcard entry "*.com" loaded,
min_wildcard_depth = 1 and wildcard_match enabled, a lookup of "example.com."
does not return the NotHandled fallthrough - the query is blocked, contrary
to the claim. -/
theorem star_com_min_depth_one_blocks_example_com :
    lookup { origin := ".".data, block_table := addContents [] "*.com".data,
             wildcard_match := true, min_wildcard_depth := 1 } "example.com.".data .A
      ≠ some (Except.error LookupError.notHandled) := by decide

/-- Claim C1, amended: the trailing root label of the fully qualified query
string counts as a split element in get_wildcards, so with
min_wildcard_depth = 1 the candidate "*.com." is still generated and the
query "example.com." is answered as blocked; min_wildcard_depth = 2 is needed
before the "*.com" anchor stops qualifying, and then the same query falls
through as NotHandled. -/
theorem star_com_min_depth_behavior :
    lookup { origin := ".".data, block_table := addContents [] "*.com".data,
             wildcard_match := true, min_wildcard_depth := 1 } "example.com.".data .A
      = some (Except.ok (lookupFromRdata "example.com.".data .A (RData.A 0 0 0 0))) ∧
    lookup { origin := ".".data, block_table := addContents [] "*.com".data,
             wildcard_match := true, min_wildcard_depth := 2 } "example.com.".data .A
      = some (Except.error LookupError.notHandled) :=
  ⟨by decide, by decide⟩

/-- Claim C2: for a query name with fewer labels than min_wildcard_depth and
wildcard matching enabled, lookup is not defined: the usize loop bound
elems.len() - (min_wildcard_depth + 1) in get_wildcards underflows and the
call diverges (none), for every block table and record type. -/
theorem lookup_short_name_underflow_panics (auth : BlockListAuthority) (name : Str)
    (rtype : RecordType) (hwc : auth.wildcard_match = true)
    (hshort : numLabels name < auth.min_wildcard_depth) :
    lookup auth name rtype = none := by
  have hpos : 0 < (splitOnChar '.' name).length :=
    List.length_pos.mpr (splitOnChar_ne_nil '.' name)
  have hg : get_wildcards auth.min_wildcard_depth name = none := by
    unfold numLabels at hshort
    unfold get_wildcards
    dsimp only
    rw [if_pos (by omega)]
  simp [lookup, hwc, hg]

/-- Witness for C2 at a concrete input: min_wildcard_depth = 2 and the
one-label query name "com.". -/
theorem lookup_short_name_underflow_panics_witness :
    lookup { origin := ".".data, block_table := [], wildcard_match := true,
             min_wildcard_depth := 2 } "com.".data .A = none :=
  lookup_short_name_underflow_panics _ _ _ (by decide) (by decide)

/-- Claim C3, counterexample: add does not lowercase its lines, so after
loading the single entry "Example.COM" the lookup of the lowercase canonical
query "example.com." is NotHandled, not blocked as the claim states. -/
theorem mixed_case_entry_not_blocking_lowercase_query :
    lookup { origin := ".".data, block_table := addContents [] "Example.COM".data,
             wildcard_match := false, min_wildcard_depth := 0 } "example.com.".data .A
      = some (Except.error LookupError.notHandled) := by decide

/-- Claim C3, amended: add preserves the case of list lines, so matching is
case-sensitive on the stored entry: "Example.COM" is stored as the key
"Example.COM." and does not block the lowercase query "example.com.", while
an entry that is already lowercase does block it. -/
theorem add_preserves_case_matching_case_sensitive :
    containsKey (addContents [] "Example.COM".data) "Example.COM.".data = true ∧
    containsKey (addContents [] "Example.COM".data) "example.com.".data = false ∧
    lookup { origin := ".".data, block_table := addContents [] "example.com".data,
             wildcard_match := false, min_wildcard_depth := 0 } "example.com.".data .A
      = some (Except.ok (lookupFromRdata "example.com.".data .A (RData.A 0 0 0 0))) :=
  ⟨by decide, by decide, by decide⟩

/-- Claim C4: whenever lookup returns (that is, does not diverge in
get_wildcards), the result is either the NotHandled fallthrough or an
Answered lookup; no other error is ever returned. -/
theorem lookup_never_returns_failed (auth : BlockListAuthority) (name : Str)
    (rtype : RecordType) (r : Except LookupError BlockListLookup)
    (h : lookup auth name rtype = some r) :
    r = Except.error LookupError.notHandled ∨ ∃ l, r = Except.ok l := by
  unfold lookup at h
  dsimp only at h
  split at h
  · rw [Option.bind_eq_bind, Option.bind_eq_some] at h
    obtain ⟨wcs, -, hrest⟩ := h
    rcases ite_eq_iff.mp hrest with ⟨-, h2⟩ | ⟨-, h2⟩
    · exact Or.inr ⟨_, (Option.some_inj.mp h2).symm⟩
    · exact Or.inl (Option.some_inj.mp h2).symm
  · rw [Option.bind_eq_bind, Option.bind_eq_some] at h
    obtain ⟨wcs, -, hrest⟩ := h
    rcases ite_eq_iff.mp hrest with ⟨-, h2⟩ | ⟨-, h2⟩
    · exact Or.inr ⟨_, (Option.some_inj.mp h2).symm⟩
    · exact Or.inl (Option.some_inj.mp h2).symm

/-- Witness for C4 at a concrete input: an empty block table yields the
NotHandled fallthrough. -/
theorem lookup_never_returns_failed_witness :
    (Except.error LookupError.notHandled : Except LookupError BlockListLookup)
        = Except.error LookupError.notHandled ∨
      ∃ l, (Except.error LookupError.notHandled : Except LookupError BlockListLookup)
        = Except.ok l :=
  lookup_never_returns_failed
    { origin := ".".data, block_table := [], wildcard_match := false, min_wildcard_depth := 0 }
    "example.com.".data .A _ (by decide)

/-- Claim C5, counterexample: with one configured list file missing from the
filesystem, try_from_config diverges (the expect in add panics, modeled as
none); no error value of any kind is returned, so the failure is not surfaced
as a LoadError value and the function does not fail with Err. -/
theorem unreadable_file_no_error_value :
    try_from_config ".".data
      { lists := ["bl.txt".data], wildcard_match := false, min_wildcard_depth := 0 }
      (some "/r".data) [] = none := by decide

/-- Claim C5, amended: an unreadable list file is fatal, but by panic rather
than by error value: whenever some configured file cannot be opened,
try_from_config diverges (none), and for every input try_from_config never
returns the Err variant of its declared Result type - there is no LoadError
value in the code at all. -/
theorem unreadable_file_panics_construction :
    (∀ (origin : Str) (config : BlockListConfig) (rd : Str) (fs : FileSystem) (bl : Str),
        bl ∈ config.lists → fileOpen fs (rd ++ '/' :: bl) = none →
        try_from_config origin config (some rd) fs = none) ∧
    (∀ (origin : Str) (config : BlockListConfig) (root_dir : Option Str) (fs : FileSystem)
        (e : String), try_from_config origin config root_dir fs ≠ some (Except.error e)) := by
  constructor
  · intro origin config rd fs bl hbl hopen
    unfold try_from_config
    dsimp only
    have hstep : ∀ (b : BlockListAuthority),
        (do
          let rdv ← some rd
          add fs b (rdv ++ '/' :: bl) : Option BlockListAuthority) = none := by
      intro b
      show add fs b (rd ++ '/' :: bl) = none
      unfold add
      rw [hopen]
      rfl
    rw [foldlM_option_none config.lists _ _ bl hbl hstep]
    rfl
  · intro origin config root_dir fs e h
    unfold try_from_config at h
    dsimp only at h
    rw [Option.bind_eq_bind, Option.bind_eq_some] at h
    obtain ⟨a, -, ha⟩ := h
    exact absurd (Option.some_inj.mp ha) (by simp)

/-- Witness for the amended C5 at a concrete input: a single configured list
file that is absent from the filesystem. -/
theorem unreadable_file_panics_construction_witness :
    try_from_config ".".data
      { lists := ["missing.txt".data], wildcard_match := false, min_wildcard_depth := 0 }
      (some "/r".data) [] = none :=
  unreadable_file_panics_construction.1 ".".data
    { lists := ["missing.txt".data], wildcard_match := false, min_wildcard_depth := 0 }
    "/r".data [] "missing.txt".data (by decide) (by decide)

/-- Claim C6: the wildcard candidates generated for a query never include the
wildcard of the full query name, so a matcher holding only the wildcard entry
anchored at the query name itself (the key built from "*." plus the query
string) leaves the anchor query NotHandled, for every query deep enough not
to trip the get_wildcards underflow. -/
theorem wildcard_never_covers_its_anchor (origin host : Str) (m : Nat) (rtype : RecordType)
    (h : m + 1 ≤ (splitOnChar '.' host).length) :
    (∀ ws, get_wildcards m host = some ws → ('*' :: '.' :: host) ∉ ws) ∧
    lookup { origin := origin, block_table := tableInsert [] ('*' :: '.' :: host) false,
             wildcard_match := true, min_wildcard_depth := m } host rtype
      = some (Except.error LookupError.notHandled) := by
  have hnotmem : ∀ ws, get_wildcards m host = some ws → ('*' :: '.' :: host) ∉ ws := by
    intro ws hws hmem
    have hlt := get_wildcards_mem_length_lt m host ws _ hws hmem
    simp only [List.length_cons] at hlt
    omega
  refine ⟨hnotmem, ?_⟩
  obtain ⟨ws, hws⟩ : ∃ ws, get_wildcards m host = some ws := by
    unfold get_wildcards
    dsimp only
    rw [if_neg (by omega)]
    exact ⟨_, rfl⟩
  have h1 : containsKey (tableInsert [] ('*' :: '.' :: host) false) host = false := by
    rw [Bool.eq_false_iff]
    intro hc
    rw [containsKey_tableInsert] at hc
    rcases hc with hk | hc2
    · have hlen := congrArg List.length hk
      simp only [List.length_cons] at hlen
      omega
    · simp [containsKey] at hc2
  have h2 : ∀ x ∈ ws, containsKey (tableInsert [] ('*' :: '.' :: host) false) x = false := by
    intro x hxw
    rw [Bool.eq_false_iff]
    intro hc
    rw [containsKey_tableInsert] at hc
    rcases hc with hk | hc2
    · exact hnotmem ws hws (hk ▸ hxw)
    · simp [containsKey] at hc2
  simp [lookup, hws, h1]
  exact h2

/-- Witness for C6 at a concrete input: the entry "*.tracker.example.com."
alone does not block the query "tracker.example.com.". -/
theorem wildcard_never_covers_its_anchor_witness :
    lookup { origin := ".".data,
             block_table := tableInsert [] ('*' :: '.' :: "tracker.example.com.".data) false,
             wildcard_match := true, min_wildcard_depth := 0 } "tracker.example.com.".data .A
      = some (Except.error LookupError.notHandled) :=
  (wildcard_never_covers_its_anchor ".".data "tracker.example.com.".data 0 .A (by decide)).2

/-- Claim C7, counterexample: a whitespace-only line is not rejected: loading
a file whose single line is one space character inserts the key of a space
followed by a dot into the block table. -/
theorem whitespace_line_inserted :
    containsKey (addContents [] " ".data) " .".data = true := by decide

/-- Claim C7, amended: add skips only lines that are exactly empty; every
other line, whitespace-only lines included, is inserted, normalized by
appending a trailing dot exactly when the line does not already end with
one: the keys of the table loaded from a file are exactly the normalized
non-empty lines. -/
theorem add_inserts_all_nonempty_lines_normalized (contents k : Str) :
    containsKey (addContents [] contents) k = true ↔
      ∃ line ∈ splitOnChar '\n' contents, line ≠ [] ∧ k = normEntry line := by
  rw [addContents_mem]
  simp [containsKey]

/-- Witness for the amended C7 at a concrete input: a file with a whitespace
line and a regular entry. -/
theorem add_inserts_all_nonempty_lines_normalized_witness :
    containsKey (addContents [] " \nads.example.com".data) "ads.example.com.".data = true :=
  (add_inserts_all_nonempty_lines_normalized " \nads.example.com".data
      "ads.example.com.".data).mpr
    ⟨"ads.example.com".data, by decide, by decide, by decide⟩

/-- Claim C8: every answered (blocked) lookup carries exactly one record, an
A record with the null address 0.0.0.0 bound to the queried name, for every
requested record type. -/
theorem blocked_lookup_single_null_a_record (auth : BlockListAuthority) (name : Str)
    (rtype : RecordType) (l : BlockListLookup)
    (h : lookup auth name rtype = some (Except.ok l)) :
    l.records = [{ name := name, rdata := RData.A 0 0 0 0 }] ∧ l.records.length = 1 := by
  unfold lookup at h
  dsimp only at h
  split at h
  · rw [Option.bind_eq_bind, Option.bind_eq_some] at h
    obtain ⟨wcs, -, hrest⟩ := h
    rcases ite_eq_iff.mp hrest with ⟨-, h2⟩ | ⟨-, h2⟩
    · have h3 := Option.some_inj.mp h2
      have h4 : lookupFromRdata name rtype (RData.A 0 0 0 0) = l := by
        cases h3
        rfl
      rw [← h4]
      exact ⟨rfl, rfl⟩
    · exact absurd (Option.some_inj.mp h2) (by simp)
  · rw [Option.bind_eq_bind, Option.bind_eq_some] at h
    obtain ⟨wcs, -, hrest⟩ := h
    rcases ite_eq_iff.mp hrest with ⟨-, h2⟩ | ⟨-, h2⟩
    · have h3 := Option.some_inj.mp h2
      have h4 : lookupFromRdata name rtype (RData.A 0 0 0 0) = l := by
        cases h3
        rfl
      rw [← h4]
      exact ⟨rfl, rfl⟩
    · exact absurd (Option.some_inj.mp h2) (by simp)

/-- Witness for C8 at a concrete input: the blocked query "ads.example.com."
of type TXT still receives the single null A record. -/
theorem blocked_lookup_single_null_a_record_witness :
    (lookupFromRdata "ads.example.com.".data .TXT (RData.A 0 0 0 0)).records
        = [{ name := "ads.example.com.".data, rdata := RData.A 0 0 0 0 }] ∧
    (lookupFromRdata "ads.example.com.".data .TXT (RData.A 0 0 0 0)).records.length = 1 :=
  blocked_lookup_single_null_a_record
    { origin := ".".data, block_table := addContents [] "ads.example.com".data,
      wildcard_match := false, min_wildcard_depth := 0 }
    "ads.example.com.".data .TXT _ (by decide)

/-- Claim C9: in the tree-based variant, lookup is decided solely by exact
membership of the query-name string in block_table: (1) the block_tree field
never influences the lookup result, (2) a lookup answers exactly when the
query string is a block_table key, and (3) add inserts each non-empty line
verbatim (no trailing dot appended and no lowercasing), so the keys after a
load are exactly the non-empty lines themselves - in particular a wildcard
line blocks only its own literal text. -/
theorem tree_variant_exact_match_only :
    (∀ (origin : Str) (table : BlockTable) (t1 t2 : BlockTree) (name : Str)
        (rtype : RecordType),
        treeLookup { origin := origin, block_table := table, block_tree := t1 } name rtype
          = treeLookup { origin := origin, block_table := table, block_tree := t2 } name rtype) ∧
    (∀ (a : TreeAuthority) (name : Str) (rtype : RecordType),
        (∃ l, treeLookup a name rtype = Except.ok l) ↔ containsKey a.block_table name = true) ∧
    (∀ (a : TreeAuthority) (contents k : Str),
        containsKey (treeAddContents a contents).block_table k = true ↔
          (containsKey a.block_table k = true ∨
            (k ∈ splitOnChar '\n' contents ∧ k ≠ []))) := by
  refine ⟨?_, ?_, ?_⟩
  · intro origin table t1 t2 name rtype
    rfl
  · intro a name rtype
    unfold treeLookup
    split
    · constructor
      · intro _
        assumption
      · intro _
        exact ⟨_, rfl⟩
    · constructor
      · rintro ⟨l, hl⟩
        exact absurd hl (by simp)
      · intro hc
        exact absurd hc (by assumption)
  · intro a contents k
    exact containsKey_foldl_treeAddLine (splitOnChar '\n' contents) a k

/-- Witness for C9 at a concrete input: after loading a file with a wildcard
line and an entry line, the verbatim wildcard line text is a block_table key
(no trailing dot was appended to it). -/
theorem tree_variant_exact_match_only_witness :
    containsKey (treeAddContents
        { origin := ".".data, block_table := [], block_tree := BlockTree.new }
        "*.example.com\nads.com.".data).block_table "*.example.com".data = true :=
  (tree_variant_exact_match_only.2.2
      { origin := ".".data, block_table := [], block_tree := BlockTree.new }
      "*.example.com\nads.com.".data "*.example.com".data).mpr
    (Or.inr ⟨by decide, by decide⟩)

/-- Claim C10: when the configured lists field is non-empty and root_dir is
absent, try_from_config diverges on root_dir.unwrap() (modeled as none)
instead of returning the Err variant of its declared Result type. -/
theorem try_from_config_none_root_dir_panics (origin : Str) (config : BlockListConfig)
    (fs : FileSystem) (h : config.lists ≠ []) :
    try_from_config origin config none fs = none := by
  unfold try_from_config
  dsimp only
  cases hl : config.lists with
  | nil => exact absurd hl h
  | cons b bs =>
    rfl

/-- Witness for C10 at a concrete input: one configured list whose file even
exists in the filesystem - the unwrap panic happens regardless. -/
theorem try_from_config_none_root_dir_panics_witness :
    try_from_config ".".data
      { lists := ["bl.txt".data], wildcard_match := false, min_wildcard_depth := 0 } none
      [("/r/bl.txt".data, "a.com".data)] = none :=
  try_from_config_none_root_dir_panics ".".data
    { lists := ["bl.txt".data], wildcard_match := false, min_wildcard_depth := 0 }
    [("/r/bl.txt".data, "a.com".data)] (by decide)
